import Mathlib

/-!
Shallow embedding of the `maci-domainobjs` classes (`PrivKey`, `PubKey`,
`Message`, `StateLeaf`, `Command`) and the serialization / envelope layer
they implement, together with theorems settling the specification claims.

JavaScript `BigInt` values that the code keeps in the SNARK field are
modelled as `Nat`; JavaScript strings are modelled as `List Char`.
Functions supplied by external packages (`maci-crypto`, `base64url`,
the `BigInt` hex parser, `JSON`) are not part of the repository sources
and are modelled from the specification; each such definition carries a
doc comment saying so.
-/

/-- Value of `SNARK_FIELD_SIZE` from `maci-crypto`: the BN254 scalar-field
prime modulus used to validate field elements. -/
def SNARK_FIELD_SIZE : Nat :=
  21888242871839275222246405745257275088548364400416034343698204186575808495617

/-- Lower-case hexadecimal digit character for a value below 16
(used to model JavaScript `BigInt.prototype.toString(16)`). -/
def hexChar : Nat → Char
  | 0 => '0' | 1 => '1' | 2 => '2' | 3 => '3'
  | 4 => '4' | 5 => '5' | 6 => '6' | 7 => '7'
  | 8 => '8' | 9 => '9' | 10 => 'a' | 11 => 'b'
  | 12 => 'c' | 13 => 'd' | 14 => 'e' | 15 => 'f'
  | _ => '0'

/-- Numeric value of a hexadecimal digit character (upper or lower case). -/
def hexVal (c : Char) : Nat :=
  if '0' ≤ c ∧ c ≤ '9' then c.toNat - 48
  else if 'a' ≤ c ∧ c ≤ 'f' then c.toNat - 87
  else if 'A' ≤ c ∧ c ≤ 'F' then c.toNat - 55
  else 0

/-- Whether a character is a hexadecimal digit. -/
def isHexDigitCh (c : Char) : Bool :=
  decide (('0' ≤ c ∧ c ≤ '9') ∨ ('a' ≤ c ∧ c ≤ 'f') ∨ ('A' ≤ c ∧ c ≤ 'F'))

/-- Whether a character is JavaScript string whitespace (the forms relevant
to numeric string parsing). -/
def isWSCh (c : Char) : Bool :=
  c == ' ' || c == '\t' || c == '\n' || c == '\r'

/-- Big-endian hexadecimal rendering of a natural number, modelling
JavaScript `v.toString(16)` for a non-negative `BigInt` (lower case,
no leading zeros, `"0"` for zero). -/
def hexOfNat (n : Nat) : List Char :=
  if n = 0 then ['0'] else ((Nat.digits 16 n).map hexChar).reverse

/-- Numeric value of a big-endian list of hexadecimal digit characters. -/
def hexToNat (s : List Char) : Nat :=
  Nat.ofDigits 16 ((s.map hexVal).reverse)

/-- Modelled from the spec: the JavaScript builtin `BigInt('0x' + x)` used by
the key and leaf deserializers. It trims trailing whitespace, then succeeds
exactly when at least one character remains and every remaining character is
a hexadecimal digit, returning the parsed value; otherwise it throws
(`none`). -/
def parseHexJS (x : List Char) : Option Nat :=
  let t := (x.reverse.dropWhile isWSCh).reverse
  if t ≠ [] ∧ t.all isHexDigitCh then some (hexToNat t) else none

/-- Serialized private-key tag `'macisk.'` (`SERIALIZED_PRIV_KEY_PREFIX`). -/
def privKeyTag : List Char := ['m', 'a', 'c', 'i', 's', 'k', '.']

/-- Serialized public-key tag `'macipk.'` (`SERIALIZED_PUB_KEY_PREFIX`). -/
def pubKeyTag : List Char := ['m', 'a', 'c', 'i', 'p', 'k', '.']

/-- A `PrivKey` wraps a raw scalar (`rawPrivKey`). -/
structure PrivKey where
  rawPrivKey : Nat
deriving DecidableEq

/-- Embedding of `PrivKey.unserialize`: drop the first 7 characters (the tag
length) and parse the remainder as hex via `BigInt('0x' + x)`; no tag check
and no field-bound check is performed. -/
def PrivKey.unserialize (s : List Char) : Option PrivKey :=
  (parseHexJS (s.drop privKeyTag.length)).map PrivKey.mk

/-- Embedding of `PrivKey.isValidSerializedPrivKey`: the string must carry the
private-key tag and the remainder must parse as hex to a value below
`SNARK_FIELD_SIZE`. -/
def PrivKey.isValidSerializedPrivKey (s : List Char) : Bool :=
  let correctTag := privKeyTag.isPrefixOf s
  let validValue :=
    match parseHexJS (s.drop privKeyTag.length) with
    | some v => decide (v < SNARK_FIELD_SIZE)
    | none => false
  correctTag && validValue

/-- A `PubKey` wraps a raw curve point, a pair of field elements `[x, y]`. -/
structure PubKey where
  x : Nat
  y : Nat
deriving DecidableEq

/-- Embedding of the `PubKey` constructor: it asserts that the raw key has
exactly two entries and that both are below `SNARK_FIELD_SIZE`; a failed
assertion is modelled as `none`. -/
def PubKey.construct (rawPubKey : List Nat) : Option PubKey :=
  if rawPubKey.length = 2 ∧ rawPubKey.getD 0 0 < SNARK_FIELD_SIZE ∧
      rawPubKey.getD 1 0 < SNARK_FIELD_SIZE then
    some ⟨rawPubKey.getD 0 0, rawPubKey.getD 1 0⟩
  else
    none

/-- Modelled from the spec: `packPubKey` from `maci-crypto` renders a curve
point as a hexadecimal string; the model packs the two coordinates
injectively and renders the result in hex. -/
def packPubKey (k : PubKey) : List Char :=
  ((Nat.digits 16 (k.x * SNARK_FIELD_SIZE + k.y)).map hexChar).reverse

/-- Modelled from the spec: `unpackPubKey` from `maci-crypto`, the inverse of
`packPubKey`, recovering the two coordinates from the hex string. -/
def unpackPubKey (s : List Char) : List Nat :=
  let n := hexToNat s
  [n / SNARK_FIELD_SIZE, n % SNARK_FIELD_SIZE]

/-- Embedding of `PubKey.serialize`: the blank key `[0, 0]` (which point
packing does not support) serializes to the tag followed by the sentinel
`'z'`; any other key serializes to the tag followed by the packed point. -/
def PubKey.serialize (k : PubKey) : List Char :=
  if k.x = 0 ∧ k.y = 0 then pubKeyTag ++ ['z']
  else pubKeyTag ++ packPubKey k

/-- Embedding of `PubKey.unserialize`: the sentinel string maps back to the
blank key `[0, 0]`; otherwise the tag is dropped, the rest is unpacked and
passed to the validating `PubKey` constructor. -/
def PubKey.unserialize (s : List Char) : Option PubKey :=
  if s = pubKeyTag ++ ['z'] then some ⟨0, 0⟩
  else PubKey.construct (unpackPubKey (s.drop pubKeyTag.length))

/-- A `Message` is an encrypted command and signature: an initialization
vector `iv` and a data array. -/
structure Message where
  iv : Nat
  data : List Nat
deriving DecidableEq

/-- Value of `Message.DATA_LENGTH`. -/
def Message.DATA_LENGTH : Nat := 7

/-- Embedding of the `Message` constructor: it asserts that the data array
has exactly `DATA_LENGTH` (7) entries; a failed assertion is modelled as
`none`. -/
def Message.construct (iv : Nat) (data : List Nat) : Option Message :=
  if data.length = Message.DATA_LENGTH then some ⟨iv, data⟩ else none

/-- Embedding of `Message.hash`, parameterized by the `hash4` and `hash5`
functions of the external crypto library: one hash folds `iv` with the first
four data entries, a second hash combines that digest with the remaining
three entries. -/
def Message.hash (hash4 hash5 : List Nat → Nat) (m : Message) : Nat :=
  let p := m.data
  hash4 [hash5 [m.iv, p.getD 0 0, p.getD 1 0, p.getD 2 0, p.getD 3 0],
    p.getD 4 0, p.getD 5 0, p.getD 6 0]

/-- An EdDSA-style signature: two curve-point coordinates `R8` and a
scalar `S`. -/
structure Signature where
  R8 : Nat × Nat
  S : Nat
deriving DecidableEq

/-- Modelled from the spec: `sign` from `maci-crypto` produces an
EdDSA-style signature over a message hash; the envelope layer relies only on
the signature being three field elements, which the model guarantees by
reducing modulo the field size. -/
def signEdDSA (sk msg : Nat) : Signature :=
  ⟨((sk + msg) % SNARK_FIELD_SIZE, (sk + 2 * msg + 1) % SNARK_FIELD_SIZE),
    (sk + 3 * msg + 2) % SNARK_FIELD_SIZE⟩

/-- Modelled from the spec: the symmetric stream cipher of `maci-crypto`
(`encrypt`/`decrypt` keyed by the ECDH shared secret). The model is kept
generic: any keystream generator (from key, iv and position) and any iv
derivation may be plugged in. -/
structure CipherModel where
  keystream : Nat → Nat → Nat → Nat
  ivOf : Nat → List Nat → Nat

/-- Ciphertext produced by the symmetric cipher: an iv and a data array. -/
structure Ciphertext where
  iv : Nat
  data : List Nat

/-- Stream-cipher encryption of a block list starting at position `i`: each
entry is blinded by the keystream value at its position, modulo the field
size. -/
def encData (ks : Nat → Nat) : Nat → List Nat → List Nat
  | _, [] => []
  | i, x :: r => (x + ks i) % SNARK_FIELD_SIZE :: encData ks (i + 1) r

/-- Stream-cipher decryption of a block list starting at position `i`:
subtracts the keystream value at each position, modulo the field size. -/
def decData (ks : Nat → Nat) : Nat → List Nat → List Nat
  | _, [] => []
  | i, x :: r =>
    (x + (SNARK_FIELD_SIZE - ks i % SNARK_FIELD_SIZE)) % SNARK_FIELD_SIZE ::
      decData ks (i + 1) r

/-- Modelled from the spec: `encrypt(plaintext, sharedKey)` from
`maci-crypto`, the symmetric encryption used by `Command.encrypt`. -/
def cryptoEncrypt (M : CipherModel) (plaintext : List Nat) (key : Nat) :
    Ciphertext :=
  let iv := M.ivOf key plaintext
  ⟨iv, encData (M.keystream key iv) 0 plaintext⟩

/-- Modelled from the spec: `decrypt(message, sharedKey)` from `maci-crypto`,
the inverse symmetric decryption used by `Command.decrypt`. -/
def cryptoDecrypt (M : CipherModel) (m : Message) (key : Nat) : List Nat :=
  decData (M.keystream key m.iv) 0 m.data

/-- Value of `limit50Bits` in the `Command` constructor: `BigInt(2 ** 50)`. -/
def limit50Bits : Nat := 2 ^ 50

/-- Unencrypted vote-update intent, with the field order of the source
class. -/
structure Command where
  stateIndex : Nat
  newPubKey : PubKey
  voteOptionIndex : Nat
  newVoteWeight : Nat
  nonce : Nat
  pollId : Nat
  salt : Nat
deriving DecidableEq

/-- Embedding of the `Command` constructor: it asserts
`limit50Bits >= field` for each of the five bounded fields (note: this
admits the value `2 ^ 50` itself); a failed assertion is modelled as
`none`. -/
def Command.construct (stateIndex : Nat) (newPubKey : PubKey)
    (voteOptionIndex newVoteWeight nonce pollId salt : Nat) : Option Command :=
  if stateIndex ≤ limit50Bits ∧ voteOptionIndex ≤ limit50Bits ∧
      newVoteWeight ≤ limit50Bits ∧ nonce ≤ limit50Bits ∧
      pollId ≤ limit50Bits then
    some ⟨stateIndex, newPubKey, voteOptionIndex, newVoteWeight, nonce,
      pollId, salt⟩
  else
    none

/-- Embedding of `Command.asArray`: the five bounded fields are packed into
one value by shifted addition, followed by the two public-key coordinates
and the salt. -/
def Command.asArray (c : Command) : List Nat :=
  let p :=
    c.stateIndex +
    (c.voteOptionIndex <<< 50) +
    (c.newVoteWeight <<< 100) +
    (c.nonce <<< 150) +
    (c.pollId <<< 200)
  [p, c.newPubKey.x, c.newPubKey.y, c.salt]

/-- Embedding of `Command.hash`: `hash4` (a parameter, supplied by the
external crypto library) applied to `asArray`. -/
def Command.hash (hash4 : List Nat → Nat) (c : Command) : Nat :=
  hash4 c.asArray

/-- Embedding of `Command.sign`: the external `sign` applied to the raw
private key and the command hash. -/
def Command.sign (hash4 : List Nat → Nat) (c : Command) (sk : PrivKey) :
    Signature :=
  signEdDSA sk.rawPrivKey (c.hash hash4)

/-- Embedding of `Command.equals`. The two public-key comparisons index the
`PubKey` object itself (`newPubKey[0]`, not `newPubKey.rawPubKey[0]`); a
`PubKey` instance has no numeric properties, so in JavaScript both sides are
`undefined`. Property access is modelled by `PubKey.indexed` and the loose
comparison of possibly-undefined values by `jsLooseEq`. -/
def PubKey.indexed (_k : PubKey) (_i : Nat) : Option Nat := none

/-- JavaScript loose equality `==` restricted to the values that occur in
`Command.equals`: numbers compare by value, `undefined == undefined` is
true, and `undefined` never equals a number. -/
def jsLooseEq : Option Nat → Option Nat → Bool
  | none, none => true
  | some a, some b => a == b
  | _, _ => false

/-- Embedding of `Command.equals` (see `PubKey.indexed` above). -/
def Command.equals (c d : Command) : Bool :=
  c.stateIndex == d.stateIndex &&
  jsLooseEq (c.newPubKey.indexed 0) (d.newPubKey.indexed 0) &&
  jsLooseEq (c.newPubKey.indexed 1) (d.newPubKey.indexed 1) &&
  c.voteOptionIndex == d.voteOptionIndex &&
  c.newVoteWeight == d.newVoteWeight &&
  c.nonce == d.nonce &&
  c.pollId == d.pollId &&
  c.salt == d.salt

/-- Embedding of `Command.encrypt`: the 4 entries of `asArray` are
concatenated with the signature's two curve-point coordinates and scalar, the
7-entry plaintext is symmetric-encrypted, and the resulting iv and data form
a `Message`; the source's assertions are modelled as `none` branches. -/
def Command.encrypt (M : CipherModel) (c : Command) (signature : Signature)
    (sharedKey : Nat) : Option Message :=
  let plaintext := c.asArray ++ [signature.R8.1, signature.R8.2, signature.S]
  if plaintext.length = 7 then
    let ciphertext := cryptoEncrypt M plaintext sharedKey
    if ciphertext.data.length = plaintext.length then
      Message.construct ciphertext.iv ciphertext.data
    else none
  else none

/-- Embedding of the `extract` helper in `Command.decrypt`: the value of the
50 bits of `val` at position `pos`, computed as
`(((1 <<< 50) - 1) <<< pos) &&& val) >>> pos`. -/
def extract (val pos : Nat) : Nat :=
  ((((1 <<< 50) - 1) <<< pos) &&& val) >>> pos

/-- Embedding of the static `Command.decrypt`: symmetric-decrypts the
message, unpacks the first plaintext entry into the five bounded fields via
`extract`, rebuilds the public key from entries 1 and 2 (through the
validating constructor) and the salt from entry 3, rebuilds the command
(through its asserting constructor) and the signature from entries 4 to 6. -/
def Command.decrypt (M : CipherModel) (m : Message) (sharedKey : Nat) :
    Option (Command × Signature) :=
  let decrypted := cryptoDecrypt M m sharedKey
  let p := decrypted.getD 0 0
  let stateIndex := extract p 0
  let voteOptionIndex := extract p 50
  let newVoteWeight := extract p 100
  let nonce := extract p 150
  let pollId := extract p 200
  (PubKey.construct [decrypted.getD 1 0, decrypted.getD 2 0]).bind
    fun newPubKey =>
      (Command.construct stateIndex newPubKey voteOptionIndex newVoteWeight
          nonce pollId (decrypted.getD 3 0)).bind
        fun command =>
          some (command,
            ⟨(decrypted.getD 4 0, decrypted.getD 5 0), decrypted.getD 6 0⟩)

/-- Shifting right after masking with a left-shifted mask equals masking the
shifted value: `(x &&& (m <<< p)) >>> p = (x >>> p) &&& m`. -/
lemma shiftRight_and_shiftLeft (x m p : Nat) :
    (x &&& (m <<< p)) >>> p = (x >>> p) &&& m := by
  apply Nat.eq_of_testBit_eq
  intro i
  simp [Nat.testBit_shiftRight, Nat.testBit_and, Nat.testBit_shiftLeft,
    Nat.le_add_right, Nat.add_sub_cancel_left]

/-- The `extract` helper of `Command.decrypt` reads the 50-bit slice at
position `pos`: it equals `val / 2 ^ pos % 2 ^ 50`. -/
lemma extract_eq_div_mod (val pos : Nat) :
    extract val pos = val / 2 ^ pos % 2 ^ 50 := by
  unfold extract
  rw [Nat.and_comm, shiftRight_and_shiftLeft]
  have h : (1 <<< 50 : Nat) - 1 = 2 ^ 50 - 1 := by
    rw [Nat.shiftLeft_eq, one_mul]
  rw [h, Nat.and_pow_two_sub_one_eq_mod, Nat.shiftRight_eq_div_pow]

/-- The five `extract` positions exactly invert the shifted-addition packing
of five values below `2 ^ 50`. -/
lemma extract_inverts_pack (a b c d e : Nat) (ha : a < 2 ^ 50)
    (hb : b < 2 ^ 50) (hc : c < 2 ^ 50) (hd : d < 2 ^ 50) (he : e < 2 ^ 50) :
    extract (a + (b <<< 50) + (c <<< 100) + (d <<< 150) + (e <<< 200)) 0 = a ∧
    extract (a + (b <<< 50) + (c <<< 100) + (d <<< 150) + (e <<< 200)) 50 = b ∧
    extract (a + (b <<< 50) + (c <<< 100) + (d <<< 150) + (e <<< 200)) 100 = c ∧
    extract (a + (b <<< 50) + (c <<< 100) + (d <<< 150) + (e <<< 200)) 150 = d ∧
    extract (a + (b <<< 50) + (c <<< 100) + (d <<< 150) + (e <<< 200)) 200 = e := by
  simp only [extract_eq_div_mod, Nat.shiftLeft_eq]
  refine ⟨?_, ?_, ?_, ?_, ?_⟩ <;> omega

/-- The packed value of five 50-bit fields is below the field modulus. -/
lemma pack_lt_field (a b c d e : Nat) (ha : a < 2 ^ 50) (hb : b < 2 ^ 50)
    (hc : c < 2 ^ 50) (hd : d < 2 ^ 50) (he : e < 2 ^ 50) :
    a + (b <<< 50) + (c <<< 100) + (d <<< 150) + (e <<< 200) <
      SNARK_FIELD_SIZE := by
  simp only [Nat.shiftLeft_eq, SNARK_FIELD_SIZE]
  omega

/-- A bitwise or with a left-shifted second operand is an addition when the
first operand fits below the shift amount. -/
lemma lor_eq_add_of_lt {a : Nat} (b : Nat) {n : Nat} (h : a < 2 ^ n) :
    a ||| (b <<< n) = a + b <<< n := by
  rw [Nat.lor_comm, Nat.shiftLeft_eq, Nat.mul_comm b (2 ^ n),
    ← Nat.mul_add_lt_is_or h, Nat.add_comm]

/-- Stream-cipher encryption preserves the block count. -/
lemma encData_length (ks : Nat → Nat) : ∀ (i : Nat) (l : List Nat),
    (encData ks i l).length = l.length := by
  intro i l
  induction l generalizing i with
  | nil => rfl
  | cons x r ih => simp [encData, ih]

/-- Stream-cipher decryption inverts encryption on blocks that are field
elements. -/
lemma decData_encData (ks : Nat → Nat) : ∀ (i : Nat) (l : List Nat),
    (∀ x ∈ l, x < SNARK_FIELD_SIZE) →
    decData ks i (encData ks i l) = l := by
  intro i l
  induction l generalizing i with
  | nil => intro _; rfl
  | cons x r ih =>
    intro h
    have hx : x < SNARK_FIELD_SIZE := h x (by simp)
    have hr : ∀ y ∈ r, y < SNARK_FIELD_SIZE := fun y hy => h y (by simp [hy])
    simp only [encData, decData, ih (i + 1) hr]
    congr 1
    simp only [SNARK_FIELD_SIZE] at hx ⊢
    omega

/-- The bitwise-or packing of the five bounded command fields, as the claim
states the first entry of `Command.asArray`. -/
def orPack (c : Command) : Nat :=
  c.stateIndex ||| (c.voteOptionIndex <<< 50) ||| (c.newVoteWeight <<< 100) |||
    (c.nonce <<< 150) ||| (c.pollId <<< 200)

/-- C2: for a command whose five bounded fields are below `2 ^ 50`,
`Command.asArray` returns exactly 4 entries: the packed value
`stateIndex ||| (voteOptionIndex <<< 50) ||| (newVoteWeight <<< 100) |||
(nonce <<< 150) ||| (pollId <<< 200)` (equal, over this domain, to the
shifted sum the code computes), then `newPubKey.x`, `newPubKey.y` and
`salt`. -/
theorem command_asArray_packs (c : Command) (h1 : c.stateIndex < 2 ^ 50)
    (h2 : c.voteOptionIndex < 2 ^ 50) (h3 : c.newVoteWeight < 2 ^ 50)
    (h4 : c.nonce < 2 ^ 50) (_h5 : c.pollId < 2 ^ 50) :
    c.asArray = [orPack c, c.newPubKey.x, c.newPubKey.y, c.salt] ∧
      c.asArray.length = 4 := by
  refine ⟨?_, rfl⟩
  unfold Command.asArray orPack
  have e1 : c.stateIndex ||| (c.voteOptionIndex <<< 50) =
      c.stateIndex + c.voteOptionIndex <<< 50 := lor_eq_add_of_lt _ h1
  have b1 : c.stateIndex + c.voteOptionIndex <<< 50 < 2 ^ 100 := by
    simp only [Nat.shiftLeft_eq]; omega
  have e2 := lor_eq_add_of_lt (n := 100) c.newVoteWeight b1
  have b2 : c.stateIndex + c.voteOptionIndex <<< 50 +
      c.newVoteWeight <<< 100 < 2 ^ 150 := by
    simp only [Nat.shiftLeft_eq]; omega
  have e3 := lor_eq_add_of_lt (n := 150) c.nonce b2
  have b3 : c.stateIndex + c.voteOptionIndex <<< 50 +
      c.newVoteWeight <<< 100 + c.nonce <<< 150 < 2 ^ 200 := by
    simp only [Nat.shiftLeft_eq]; omega
  have e4 := lor_eq_add_of_lt (n := 200) c.pollId b3
  simp only [e1, e2, e3, e4]

/-- C2 witness at a concrete command. -/
theorem command_asArray_packs_w :
    Command.asArray ⟨1, ⟨11, 12⟩, 2, 3, 4, 5, 99⟩ =
      [orPack ⟨1, ⟨11, 12⟩, 2, 3, 4, 5, 99⟩, 11, 12, 99] ∧
    (Command.asArray ⟨1, ⟨11, 12⟩, 2, 3, 4, 5, 99⟩).length = 4 :=
  command_asArray_packs ⟨1, ⟨11, 12⟩, 2, 3, 4, 5, 99⟩ (by decide) (by decide)
    (by decide) (by decide) (by decide)

/-- C3: evaluation of the `Command` constructor at the boundary input
`stateIndex = 2 ^ 50`. The claim (and the spec invariant) say construction
must fail for any bounded field at or above `2 ^ 50`, but the source checks
`limit50Bits >= stateIndex`, so the assertion passes and construction
succeeds at exactly `2 ^ 50`. -/
theorem command_construct_accepts_two_pow_fifty :
    (Command.construct (2 ^ 50) ⟨0, 0⟩ 0 0 0 0 0).isSome = true ∧
    (Command.construct (2 ^ 50 + 1) ⟨0, 0⟩ 0 0 0 0 0).isSome = false := by
  constructor <;> decide

/-- C4: the boolean predicate `PrivKey.isValidSerializedPrivKey` holds
exactly when the throwing path `PrivKey.unserialize` succeeds, the resulting
scalar is below the field modulus, and the string carries the private-key
tag. -/
theorem privKey_validity_predicate_agrees (s : List Char) :
    PrivKey.isValidSerializedPrivKey s = true ↔
      ∃ k : PrivKey, PrivKey.unserialize s = some k ∧
        k.rawPrivKey < SNARK_FIELD_SIZE ∧ privKeyTag.isPrefixOf s = true := by
  unfold PrivKey.isValidSerializedPrivKey PrivKey.unserialize
  cases h : parseHexJS (s.drop privKeyTag.length) with
  | none => simp [h]
  | some v =>
    simp only [h, Option.map_some, Bool.and_eq_true, decide_eq_true_eq,
      Option.some.injEq]
    constructor
    · rintro ⟨htag, hv⟩
      exact ⟨⟨v⟩, rfl, hv, htag⟩
    · rintro ⟨k, hk, hv, htag⟩
      cases hk
      exact ⟨htag, hv⟩

/-- C5: `Message.hash` is the two-stage hash: one hash folds `iv` with the
first four data entries, a second hash combines that digest with the
remaining three entries. -/
theorem message_hash_two_stage (hash4 hash5 : List Nat → Nat)
    (iv p0 p1 p2 p3 p4 p5 p6 : Nat) :
    Message.hash hash4 hash5 ⟨iv, [p0, p1, p2, p3, p4, p5, p6]⟩ =
      hash4 [hash5 [iv, p0, p1, p2, p3], p4, p5, p6] := rfl

/-- C8: the `PubKey` constructor succeeds exactly when the raw key has
exactly two entries, each below the field modulus. -/
theorem pubKey_construct_iff (l : List Nat) :
    (PubKey.construct l).isSome = true ↔
      l.length = 2 ∧ ∀ v ∈ l, v < SNARK_FIELD_SIZE := by
  rcases l with _ | ⟨a, _ | ⟨b, _ | ⟨c, t⟩⟩⟩ <;>
    simp [PubKey.construct, and_assoc]

/-- C10: `Command.equals` does not compare the public keys: two commands
that agree on the six numeric fields but carry different `newPubKey` values
still compare equal, because the comparison indexes the `PubKey` object
itself and both sides are `undefined`. -/
theorem command_equals_ignores_pubKey (c d : Command)
    (h1 : c.stateIndex = d.stateIndex)
    (h2 : c.voteOptionIndex = d.voteOptionIndex)
    (h3 : c.newVoteWeight = d.newVoteWeight) (h4 : c.nonce = d.nonce)
    (h5 : c.pollId = d.pollId) (h6 : c.salt = d.salt)
    (_hne : c.newPubKey ≠ d.newPubKey) :
    Command.equals c d = true := by
  simp [Command.equals, jsLooseEq, PubKey.indexed, h1, h2, h3, h4, h5, h6]

/-- C10 witness: two concrete commands differing only in their public
keys. -/
theorem command_equals_ignores_pubKey_w :
    (⟨1, ⟨2, 3⟩, 4, 5, 6, 7, 8⟩ : Command).newPubKey ≠
      (⟨1, ⟨9, 10⟩, 4, 5, 6, 7, 8⟩ : Command).newPubKey ∧
    Command.equals ⟨1, ⟨2, 3⟩, 4, 5, 6, 7, 8⟩ ⟨1, ⟨9, 10⟩, 4, 5, 6, 7, 8⟩ =
      true :=
  ⟨by decide, command_equals_ignores_pubKey _ _ rfl rfl rfl rfl rfl rfl
    (by decide)⟩

/-- C6: the `Message` constructor succeeds exactly on 7-entry data arrays;
for every command and signature the plaintext built by `Command.encrypt` (the
4 entries of `asArray` followed by `R8[0]`, `R8[1]`, `S`) has 7 entries, and
the encryption returns a message whose data has exactly 7 entries. -/
theorem message_seven_elements :
    (∀ (iv : Nat) (data : List Nat),
      (Message.construct iv data).isSome = true ↔ data.length = 7) ∧
    (∀ (c : Command) (sig : Signature),
      (c.asArray ++ [sig.R8.1, sig.R8.2, sig.S]).length = 7) ∧
    (∀ (M : CipherModel) (c : Command) (sig : Signature) (key : Nat),
      ∃ m, Command.encrypt M c sig key = some m ∧ m.data.length = 7) := by
  refine ⟨?_, ?_, ?_⟩
  · intro iv data
    by_cases h : data.length = 7 <;>
      simp [Message.construct, Message.DATA_LENGTH, h]
  · intro c sig
    rfl
  · intro M c sig key
    have hlen : (c.asArray ++ [sig.R8.1, sig.R8.2, sig.S]).length = 7 := rfl
    refine ⟨⟨M.ivOf key (c.asArray ++ [sig.R8.1, sig.R8.2, sig.S]),
      encData (M.keystream key
        (M.ivOf key (c.asArray ++ [sig.R8.1, sig.R8.2, sig.S]))) 0
        (c.asArray ++ [sig.R8.1, sig.R8.2, sig.S])⟩, ?_, ?_⟩
    · simp [Command.encrypt, cryptoEncrypt, hlen, encData_length,
        Message.construct, Message.DATA_LENGTH]
    · simp [encData_length, hlen]

set_option maxRecDepth 4000

/-- Decryption inverts encryption for any command with 50-bit bounded
fields and field-element key material, and any signature whose three
components are field elements. -/
lemma decrypt_encrypt_aux (M : CipherModel) (c : Command) (sig : Signature)
    (key : Nat) (h1 : c.stateIndex < 2 ^ 50) (h2 : c.voteOptionIndex < 2 ^ 50)
    (h3 : c.newVoteWeight < 2 ^ 50) (h4 : c.nonce < 2 ^ 50)
    (h5 : c.pollId < 2 ^ 50) (hx : c.newPubKey.x < SNARK_FIELD_SIZE)
    (hy : c.newPubKey.y < SNARK_FIELD_SIZE) (hs : c.salt < SNARK_FIELD_SIZE)
    (hr0 : sig.R8.1 < SNARK_FIELD_SIZE) (hr1 : sig.R8.2 < SNARK_FIELD_SIZE)
    (hrS : sig.S < SNARK_FIELD_SIZE) :
    (Command.encrypt M c sig key).bind (fun m => Command.decrypt M m key) =
      some (c, sig) := by
  have hptlist : c.asArray ++ [sig.R8.1, sig.R8.2, sig.S] =
      [c.stateIndex + (c.voteOptionIndex <<< 50) + (c.newVoteWeight <<< 100) +
        (c.nonce <<< 150) + (c.pollId <<< 200),
       c.newPubKey.x, c.newPubKey.y, c.salt, sig.R8.1, sig.R8.2, sig.S] := rfl
  have hbound : ∀ v ∈ c.asArray ++ [sig.R8.1, sig.R8.2, sig.S],
      v < SNARK_FIELD_SIZE := by
    rw [hptlist]
    simp only [List.forall_mem_cons]
    exact ⟨pack_lt_field _ _ _ _ _ h1 h2 h3 h4 h5, hx, hy, hs, hr0, hr1, hrS,
      by simp⟩
  have henc : Command.encrypt M c sig key =
      some ⟨M.ivOf key (c.asArray ++ [sig.R8.1, sig.R8.2, sig.S]),
        encData (M.keystream key
            (M.ivOf key (c.asArray ++ [sig.R8.1, sig.R8.2, sig.S]))) 0
          (c.asArray ++ [sig.R8.1, sig.R8.2, sig.S])⟩ := by
    have hlen : (c.asArray ++ [sig.R8.1, sig.R8.2, sig.S]).length = 7 := by
      rw [hptlist]
      rfl
    simp [Command.encrypt, cryptoEncrypt, Message.construct,
      Message.DATA_LENGTH, encData_length, hlen]
  rw [henc, Option.some_bind]
  unfold Command.decrypt cryptoDecrypt
  simp only [decData_encData _ 0 _ hbound]
  rw [hptlist]
  simp only [List.getD_cons_zero, List.getD_cons_succ]
  obtain ⟨e0, e50, e100, e150, e200⟩ :=
    extract_inverts_pack c.stateIndex c.voteOptionIndex c.newVoteWeight
      c.nonce c.pollId h1 h2 h3 h4 h5
  rw [e0, e50, e100, e150, e200]
  have hpk : PubKey.construct [c.newPubKey.x, c.newPubKey.y] =
      some ⟨c.newPubKey.x, c.newPubKey.y⟩ := by
    simp [PubKey.construct, hx, hy]
  rw [hpk]
  have hcc : Command.construct c.stateIndex ⟨c.newPubKey.x, c.newPubKey.y⟩
      c.voteOptionIndex c.newVoteWeight c.nonce c.pollId c.salt = some c := by
    unfold Command.construct
    rw [if_pos ⟨Nat.le_of_lt h1, Nat.le_of_lt h2, Nat.le_of_lt h3,
      Nat.le_of_lt h4, Nat.le_of_lt h5⟩]
  rw [Option.some_bind, hcc, Option.some_bind]

/-- C1: for every command whose five bounded fields are below `2 ^ 50` (and
whose public-key coordinates and salt are field elements), decrypting the
message produced by `encrypt(sign(privKey), sharedKey)` with the same shared
key returns the original command in all seven fields together with the
original signature; in particular the 50-bit `extract` unpacking inverts the
packing of `Command.asArray` over that domain. -/
theorem command_decrypt_inverts_encrypt (M : CipherModel)
    (hash4 : List Nat → Nat) (sk : PrivKey) (sharedKey : Nat) (c : Command)
    (h1 : c.stateIndex < 2 ^ 50) (h2 : c.voteOptionIndex < 2 ^ 50)
    (h3 : c.newVoteWeight < 2 ^ 50) (h4 : c.nonce < 2 ^ 50)
    (h5 : c.pollId < 2 ^ 50) (hx : c.newPubKey.x < SNARK_FIELD_SIZE)
    (hy : c.newPubKey.y < SNARK_FIELD_SIZE) (hs : c.salt < SNARK_FIELD_SIZE) :
    (Command.encrypt M c (Command.sign hash4 c sk) sharedKey).bind
        (fun m => Command.decrypt M m sharedKey) =
      some (c, Command.sign hash4 c sk) := by
  have hP : 0 < SNARK_FIELD_SIZE := by decide
  exact decrypt_encrypt_aux M c _ sharedKey h1 h2 h3 h4 h5 hx hy hs
    (Nat.mod_lt _ hP) (Nat.mod_lt _ hP) (Nat.mod_lt _ hP)

/-- C1 witness: the round trip at a concrete cipher model, hash, key pair
and command. -/
theorem command_decrypt_inverts_encrypt_w :
    (Command.encrypt ⟨fun k iv i => k + iv + i, fun k pt => k + pt.length⟩
        ⟨1, ⟨2, 3⟩, 4, 5, 6, 7, 8⟩
        (Command.sign (fun l => l.foldl (fun a x => a + x) 0)
          ⟨1, ⟨2, 3⟩, 4, 5, 6, 7, 8⟩ ⟨9⟩) 11).bind
      (fun m => Command.decrypt
        ⟨fun k iv i => k + iv + i, fun k pt => k + pt.length⟩ m 11) =
    some (⟨1, ⟨2, 3⟩, 4, 5, 6, 7, 8⟩,
      Command.sign (fun l => l.foldl (fun a x => a + x) 0)
        ⟨1, ⟨2, 3⟩, 4, 5, 6, 7, 8⟩ ⟨9⟩) :=
  command_decrypt_inverts_encrypt _ _ _ _ _ (by decide) (by decide) (by decide)
    (by decide) (by decide) (by decide) (by decide) (by decide)

/-- Hex rendering and value are mutually inverse on digits below 16. -/
lemma hexVal_hexChar : ∀ d < 16, hexVal (hexChar d) = d := by decide

/-- Characters produced by `hexChar` on digits below 16 are hexadecimal
digits and are neither the sentinel `'z'`, a quote, nor whitespace. -/
lemma hexChar_props : ∀ d < 16, isHexDigitCh (hexChar d) = true ∧
    hexChar d ≠ 'z' ∧ hexChar d ≠ '"' ∧ isWSCh (hexChar d) = false := by
  decide

/-- Reading back the big-endian hex rendering of the base-16 digits of `n`
recovers `n`. -/
lemma hexToNat_digits (n : Nat) :
    hexToNat (((Nat.digits 16 n).map hexChar).reverse) = n := by
  unfold hexToNat
  rw [← List.map_reverse, List.reverse_reverse, List.map_map]
  have h : ∀ d ∈ Nat.digits 16 n, (hexVal ∘ hexChar) d = id d :=
    fun d hd => hexVal_hexChar d (Nat.digits_lt_base (by norm_num) hd)
  rw [List.map_congr_left h, List.map_id, Nat.ofDigits_digits]

/-- Every character of a packed point is a hex digit, hence neither the
sentinel `'z'` nor a quote nor whitespace. -/
lemma packPubKey_chars (k : PubKey) : ∀ c ∈ packPubKey k,
    isHexDigitCh c = true ∧ c ≠ 'z' ∧ c ≠ '"' ∧ isWSCh c = false := by
  unfold packPubKey
  intro cc hc
  rw [List.mem_reverse] at hc
  obtain ⟨d, hd, rfl⟩ := List.mem_map.mp hc
  exact hexChar_props d (Nat.digits_lt_base (by norm_num) hd)

/-- The point packing never produces the one-character sentinel `['z']`. -/
lemma packPubKey_ne_sentinel (k : PubKey) : packPubKey k ≠ ['z'] := by
  intro h
  have hz : 'z' ∈ packPubKey k := by rw [h]; exact List.mem_singleton.mpr rfl
  exact (packPubKey_chars k 'z' hz).2.1 rfl

/-- Unserializing a serialized public key recovers the key, for any key whose
coordinates are field elements (the blank key goes through the sentinel
branch, every other key through point packing). -/
lemma pubKey_unserialize_serialize (k : PubKey) (hx : k.x < SNARK_FIELD_SIZE)
    (hy : k.y < SNARK_FIELD_SIZE) :
    PubKey.unserialize k.serialize = some k := by
  by_cases hb : k.x = 0 ∧ k.y = 0
  · have hk : k = ⟨0, 0⟩ := by
      cases k
      simp_all
    rw [hk]
    decide
  · unfold PubKey.serialize PubKey.unserialize
    rw [if_neg hb]
    have hne : pubKeyTag ++ packPubKey k ≠ pubKeyTag ++ ['z'] := by
      intro h
      exact packPubKey_ne_sentinel k (List.append_cancel_left h)
    rw [if_neg hne, List.drop_left]
    have hpk : hexToNat (packPubKey k) = k.x * SNARK_FIELD_SIZE + k.y := by
      unfold packPubKey
      exact hexToNat_digits _
    have hdiv : (k.x * SNARK_FIELD_SIZE + k.y) / SNARK_FIELD_SIZE = k.x := by
      simp only [SNARK_FIELD_SIZE] at hy ⊢
      omega
    have hmod : (k.x * SNARK_FIELD_SIZE + k.y) % SNARK_FIELD_SIZE = k.y := by
      simp only [SNARK_FIELD_SIZE] at hy ⊢
      omega
    show PubKey.construct
        [hexToNat (packPubKey k) / SNARK_FIELD_SIZE,
         hexToNat (packPubKey k) % SNARK_FIELD_SIZE] = some k
    rw [hpk, hdiv, hmod]
    unfold PubKey.construct
    rw [if_pos (⟨rfl, hx, hy⟩ :
      ([k.x, k.y].length = 2 ∧ [k.x, k.y].getD 0 0 < SNARK_FIELD_SIZE ∧
        [k.x, k.y].getD 1 0 < SNARK_FIELD_SIZE))]
    rfl

/-- C7: public-key serialization special-cases the blank key: `[0, 0]`
serializes to the tag followed by the sentinel `'z'`, unserializing that
sentinel string returns the blank key, and for every valid public key
(blank or not) unserializing its serialization recovers both coordinates. -/
theorem pubKey_blank_sentinel_roundtrip (k : PubKey)
    (hx : k.x < SNARK_FIELD_SIZE) (hy : k.y < SNARK_FIELD_SIZE) :
    PubKey.serialize ⟨0, 0⟩ = pubKeyTag ++ ['z'] ∧
    PubKey.unserialize (pubKeyTag ++ ['z']) = some ⟨0, 0⟩ ∧
    PubKey.unserialize (PubKey.serialize k) = some k :=
  ⟨by simp [PubKey.serialize],
   by simp [PubKey.unserialize],
   pubKey_unserialize_serialize k hx hy⟩

/-- C7 witness: the sentinel equations together with the round trip at the
concrete key `[5, 7]`. -/
theorem pubKey_blank_sentinel_roundtrip_w :
    PubKey.serialize ⟨0, 0⟩ = pubKeyTag ++ ['z'] ∧
    PubKey.unserialize (pubKeyTag ++ ['z']) = some ⟨0, 0⟩ ∧
    PubKey.unserialize (PubKey.serialize ⟨5, 7⟩) = some ⟨5, 7⟩ :=
  pubKey_blank_sentinel_roundtrip ⟨5, 7⟩ (by decide) (by decide)

/-- Parsing succeeds on any nonempty all-hex-digit string and returns its
value. -/
lemma parseHexJS_of_hex (l : List Char) (hne : l ≠ [])
    (hall : ∀ c ∈ l, isHexDigitCh c = true ∧ isWSCh c = false) :
    parseHexJS l = some (hexToNat l) := by
  unfold parseHexJS
  have hrev : l.reverse.dropWhile isWSCh = l.reverse := by
    cases hr : l.reverse with
    | nil => rfl
    | cons a t =>
      have ha : a ∈ l := by
        rw [← List.mem_reverse, hr]
        exact List.mem_cons_self a t
      rw [List.dropWhile_cons, (hall a ha).2]
      simp
  rw [hrev, List.reverse_reverse]
  rw [if_pos ⟨hne, List.all_eq_true.mpr fun c hc => (hall c hc).1⟩]

/-- The characters of the hex rendering are hex digits, not quotes, not
whitespace. -/
lemma hexOfNat_chars (n : Nat) : ∀ c ∈ hexOfNat n,
    isHexDigitCh c = true ∧ c ≠ '"' ∧ isWSCh c = false := by
  unfold hexOfNat
  split
  · decide
  · intro c hc
    rw [List.mem_reverse] at hc
    obtain ⟨d, hd, rfl⟩ := List.mem_map.mp hc
    obtain ⟨a, b2, c2, d2⟩ := hexChar_props d (Nat.digits_lt_base (by norm_num) hd)
    exact ⟨a, c2, d2⟩

/-- The hex rendering is never empty. -/
lemma hexOfNat_ne_nil (n : Nat) : hexOfNat n ≠ [] := by
  unfold hexOfNat
  split
  · simp
  · rename_i h
    intro hcon
    rw [List.reverse_eq_nil_iff, List.map_eq_nil_iff] at hcon
    exact Nat.digits_ne_nil_iff_ne_zero.mpr h hcon

/-- Reading back the hex rendering of `n` yields `n`. -/
lemma hexToNat_hexOfNat (n : Nat) : hexToNat (hexOfNat n) = n := by
  unfold hexOfNat
  split
  · rename_i h
    subst h
    decide
  · exact hexToNat_digits n

/-- The JavaScript hex parser inverts the hex rendering. -/
lemma parseHexJS_hexOfNat (n : Nat) : parseHexJS (hexOfNat n) = some n := by
  rw [parseHexJS_of_hex (hexOfNat n) (hexOfNat_ne_nil n)
    (fun c hc => ⟨(hexOfNat_chars n c hc).1, (hexOfNat_chars n c hc).2.2⟩),
    hexToNat_hexOfNat]

/-- Dropping a leading literal piece of text: returns the remainder when the
text starts with the piece. -/
def stripPre (pre s : List Char) : Option (List Char) :=
  if pre.isPrefixOf s then some (s.drop pre.length) else none

/-- Stripping a piece off the text it heads returns the remainder. -/
lemma stripPre_append (pre rest : List Char) :
    stripPre pre (pre ++ rest) = some rest := by
  unfold stripPre
  have h : pre.isPrefixOf (pre ++ rest) = true :=
    List.isPrefixOf_iff_prefix.mpr (List.prefix_append pre rest)
  rw [if_pos h, List.drop_left]

/-- Taking up to the first quote in `a ++ '"' :: b` yields `a` when `a` has
no quote. -/
lemma takeWhile_append_quote (a b : List Char) (h : ∀ c ∈ a, c ≠ '"') :
    (a ++ '"' :: b).takeWhile (fun c => c != '"') = a := by
  induction a with
  | nil => simp [List.takeWhile_cons]
  | cons x t ih =>
    have hx : (x != '"') = true := bne_iff_ne.mpr (h x (List.mem_cons_self x t))
    simp only [List.cons_append, List.takeWhile_cons, hx, if_true]
    rw [ih (fun c hc => h c (List.mem_cons_of_mem x hc))]

/-- Dropping up to the first quote in `a ++ '"' :: b` yields `'"' :: b` when
`a` has no quote. -/
lemma dropWhile_append_quote (a b : List Char) (h : ∀ c ∈ a, c ≠ '"') :
    (a ++ '"' :: b).dropWhile (fun c => c != '"') = '"' :: b := by
  induction a with
  | nil => simp [List.dropWhile_cons]
  | cons x t ih =>
    have hx : (x != '"') = true := bne_iff_ne.mpr (h x (List.mem_cons_self x t))
    simp only [List.cons_append, List.dropWhile_cons, hx, if_true]
    exact ih (fun c hc => h c (List.mem_cons_of_mem x hc))

/-- Opening piece of the serialized leaf JSON text, up to and including the
quote that starts the `pubKey` value. -/
def jsonOpenTag : List Char :=
  ['\x7b', '"', 'p', 'u', 'b', 'K', 'e', 'y', '"', ':', '"']

/-- Middle piece of the serialized leaf JSON text between the two values,
after its leading quote. -/
def jsonMidTail : List Char :=
  [',', '"', 'v', 'o', 'i', 'c', 'e', 'C', 'r', 'e', 'd', 'i', 't', 'B',
   'a', 'l', 'a', 'n', 'c', 'e', '"', ':', '"']

/-- Middle piece of the serialized leaf JSON text: closes the `pubKey` value
and opens the `voiceCreditBalance` value. -/
def jsonMidTag : List Char := '"' :: jsonMidTail

/-- Closing piece of the serialized leaf JSON text. -/
def jsonCloseTag : List Char := '"' :: ['\x7d']

/-- Modelled from the spec: `JSON.stringify` (with no indentation) of the
leaf object carrying the two string fields `pubKey` and
`voiceCreditBalance`, in that order. -/
def jsonLeaf (pk bal : List Char) : List Char :=
  jsonOpenTag ++ pk ++ jsonMidTag ++ bal ++ jsonCloseTag

/-- Modelled from the spec: `JSON.parse` as applied by the leaf
deserializer, reading back the two string fields of the leaf object from the
exact text shape `JSON.stringify` produces. -/
def jsonParseLeaf (s : List Char) : Option (List Char × List Char) :=
  (stripPre jsonOpenTag s).bind fun r1 =>
    let pk := r1.takeWhile (fun c => c != '"')
    (stripPre jsonMidTag (r1.dropWhile (fun c => c != '"'))).bind fun r2 =>
      let bal := r2.takeWhile (fun c => c != '"')
      (stripPre jsonCloseTag (r2.dropWhile (fun c => c != '"'))).bind fun r3 =>
        if r3 = [] then some (pk, bal) else none

/-- Parsing the leaf JSON text recovers the two field values, provided
neither value contains a quote. -/
lemma jsonParseLeaf_jsonLeaf (pk bal : List Char)
    (hpk : ∀ c ∈ pk, c ≠ '"') (hbal : ∀ c ∈ bal, c ≠ '"') :
    jsonParseLeaf (jsonLeaf pk bal) = some (pk, bal) := by
  unfold jsonLeaf jsonParseLeaf
  rw [show jsonOpenTag ++ pk ++ jsonMidTag ++ bal ++ jsonCloseTag =
      jsonOpenTag ++ (pk ++ '"' :: (jsonMidTail ++ (bal ++ jsonCloseTag)))
    from by simp [jsonMidTag, List.append_assoc]]
  rw [stripPre_append, Option.some_bind]
  rw [takeWhile_append_quote _ _ hpk, dropWhile_append_quote _ _ hpk]
  rw [show ('"' :: (jsonMidTail ++ (bal ++ jsonCloseTag))) =
      jsonMidTag ++ (bal ++ jsonCloseTag) from rfl]
  rw [stripPre_append, Option.some_bind]
  rw [show bal ++ jsonCloseTag = bal ++ '"' :: ['\x7d'] from rfl]
  rw [takeWhile_append_quote _ _ hbal, dropWhile_append_quote _ _ hbal]
  rw [show ('"' :: ['\x7d'] : List Char) = jsonCloseTag ++ [] from rfl]
  rw [stripPre_append, Option.some_bind]
  rfl

/-- Modelled from the spec: the third-party `base64url` codec, as an
arbitrary encoder together with its left-inverse decoder (the only contract
the leaf serializer relies on). -/
structure Base64Codec where
  enc : List Char → List Char
  dec : List Char → List Char
  dec_enc : ∀ s, dec (enc s) = s

/-- A leaf in the state tree: a public key and a voice credit balance. -/
structure StateLeaf where
  pubKey : PubKey
  voiceCreditBalance : Nat
deriving DecidableEq

/-- Embedding of `StateLeaf.serialize`: base64url-encode the JSON object
whose `pubKey` field is the serialized public key and whose
`voiceCreditBalance` field is the balance in hex. -/
def StateLeaf.serialize (B : Base64Codec) (l : StateLeaf) : List Char :=
  B.enc (jsonLeaf l.pubKey.serialize (hexOfNat l.voiceCreditBalance))

/-- Embedding of the static `StateLeaf.unserialize`: base64url-decode, parse
the JSON object, unserialize the public key and parse the balance via
`BigInt('0x' + ...)`. -/
def StateLeaf.unserialize (B : Base64Codec) (s : List Char) :
    Option StateLeaf :=
  (jsonParseLeaf (B.dec s)).bind fun j =>
    (PubKey.unserialize j.1).bind fun pk =>
      (parseHexJS j.2).map fun v => ⟨pk, v⟩

/-- No character of a serialized public key is a quote. -/
lemma pubKey_serialize_no_quote (k : PubKey) :
    ∀ c ∈ PubKey.serialize k, c ≠ '"' := by
  unfold PubKey.serialize
  split
  · decide
  · intro c hc
    rw [List.mem_append] at hc
    rcases hc with h | h
    · revert h
      revert c
      decide
    · exact (packPubKey_chars k c h).2.2.1

/-- C9: for a state leaf with a serializable public key (and a non-negative
balance, inherent in the model), `serialize` is the base64url encoding of
the JSON object with the serialized public key and the hex balance, and
`unserialize` recovers the public-key coordinates and the balance. -/
theorem stateLeaf_serialize_roundtrip (B : Base64Codec) (l : StateLeaf)
    (hx : l.pubKey.x < SNARK_FIELD_SIZE)
    (hy : l.pubKey.y < SNARK_FIELD_SIZE) :
    StateLeaf.serialize B l =
      B.enc (jsonLeaf (PubKey.serialize l.pubKey)
        (hexOfNat l.voiceCreditBalance)) ∧
    StateLeaf.unserialize B (StateLeaf.serialize B l) = some l := by
  refine ⟨rfl, ?_⟩
  unfold StateLeaf.serialize StateLeaf.unserialize
  rw [B.dec_enc]
  rw [jsonParseLeaf_jsonLeaf _ _ (pubKey_serialize_no_quote l.pubKey)
    (fun c hc => (hexOfNat_chars _ c hc).2.1)]
  rw [Option.some_bind]
  rw [pubKey_unserialize_serialize l.pubKey hx hy, Option.some_bind]
  rw [parseHexJS_hexOfNat]
  rfl

/-- C9 witness: the round trip at a concrete codec and leaf. -/
theorem stateLeaf_serialize_roundtrip_w :
    StateLeaf.serialize ⟨fun s => s, fun s => s, fun _ => rfl⟩ ⟨⟨3, 4⟩, 100⟩ =
      jsonLeaf (PubKey.serialize ⟨3, 4⟩) (hexOfNat 100) ∧
    StateLeaf.unserialize ⟨fun s => s, fun s => s, fun _ => rfl⟩
        (StateLeaf.serialize ⟨fun s => s, fun s => s, fun _ => rfl⟩
          ⟨⟨3, 4⟩, 100⟩) =
      some ⟨⟨3, 4⟩, 100⟩ :=
  stateLeaf_serialize_roundtrip ⟨fun s => s, fun s => s, fun _ => rfl⟩
    ⟨⟨3, 4⟩, 100⟩ (by decide) (by decide)
